import Mathlib

/-
Verification of the BibleAquifer static-site build script (src/build_site.py)
against its design specification.

The Python module is shallowly embedded below.  JSON dictionaries with a
fixed shape become Lean structures whose nullable / possibly-absent string
fields are `Option String`; a dictionary key that is tracked for *presence*
(the resource-level `title` and `_temp_title` slots) becomes
`Option (Option String)` (`none` = key absent, `some v` = key present with
value `v`, where `v = none` models Python `None`).  Python dicts used as
insertion-ordered maps (`resource_data['languages']`, the resource map,
`ingredients`) are association lists with dict-assignment semantics
(`dictInsert` replaces in place, else appends).  The HTTP layer is an
explicit environment: each endpoint's observable outcome is a field of
`Env`, and an uncaught Python exception is `Except.error ()`.
-/

namespace BibleAquifer

/-- Python truthiness restricted to `Option String`: `None` and `""` are falsy. -/
def pyTruthy : Option String → Bool
  | none => false
  | some s => !(s == "")

/-- Python `a or b` on nullable strings: returns `b` whenever `a` is falsy. -/
def pyOr (a b : Option String) : Option String :=
  if pyTruthy a then a else b

/-- ASCII upper-casing of one character, the case mapping relevant to the
3-letter codes and labels this program handles. -/
def asciiUpperChar (c : Char) : Char :=
  if 'a' ≤ c ∧ c ≤ 'z' then Char.ofNat (c.toNat - 32) else c

/-- ASCII `str.upper()` over the character list of a string. -/
def strUpper (s : String) : String :=
  ⟨s.data.map asciiUpperChar⟩

/-- Boolean prefix test on character lists (first argument is the candidate
prefix of the second). -/
def listIsInit : List Char → List Char → Bool
  | [], _ => true
  | _, [] => false
  | a :: as, b :: bs => a == b && listIsInit as bs

/-- Python `s.startswith(p)`. -/
def strStartsWith (s p : String) : Bool :=
  listIsInit p.data s.data

/-- Python `s.endswith(p)`. -/
def strEndsWith (s p : String) : Bool :=
  listIsInit p.data.reverse s.data.reverse

/-- Python `s[n:]` (drop the first `n` characters). -/
def strDrop (s : String) (n : Nat) : String :=
  ⟨s.data.drop n⟩

/-- Python `s.strip()`. -/
def strTrim (s : String) : String :=
  ⟨((s.data.dropWhile Char.isWhitespace).reverse.dropWhile Char.isWhitespace).reverse⟩

/-- Python `re.sub(r'([A-Z])', r' \1', repo_name).strip()`: insert a space
before every ASCII capital, then strip. -/
def camelSplit (s : String) : String :=
  strTrim ⟨s.data.flatMap (fun c => if c.isUpper then [' ', c] else [c])⟩

/-- Model of `license_info.copyright.holder` (`{'name': ...}`). -/
structure Holder where
  name : Option String
deriving DecidableEq

/-- Model of `license_info.copyright` (`{'dates': ..., 'holder': {...}}`). -/
structure CopyrightInfo where
  dates : Option String
  holder : Holder
deriving DecidableEq

/-- One entry of the `licenses` list: a dict from language code to
`{'name': ...}`; we model each value by its `name` field. -/
structure LicenseEntry where
  name : Option String
deriving DecidableEq

/-- Model of `resource_metadata.license_info`.  A missing `license_info` key
(`resource_meta.get('license_info', {})`) is the record with all fields
empty. -/
structure LicenseInfo where
  title : Option String
  copyright : CopyrightInfo
  licenses : List (List (String × LicenseEntry))
deriving DecidableEq

/-- Model of the `resource_metadata` block of a metadata document, covering
exactly the keys the build script reads. -/
structure ResourceMeta where
  title : Option String
  aquifer_name : Option String
  version : Option String
  resource_type : Option String
  aquifer_type : Option String
  content_type : Option String
  language : Option String
  order : Option String
  adaptation_notice : Option String
  license_info : LicenseInfo
deriving DecidableEq

/-- One ingredient of `scripture_burrito.ingredients`: `{mimeType, scope?}`.
The source guards each value with `isinstance(info, dict)`; this typed model
only represents dictionary-shaped values, so that guard is always satisfied.
`scope` is a dict whose first key is used as a raw label; `none` models a
missing `scope` key. -/
structure Ingredient where
  mimeType : Option String
  scope : Option (List (String × List String))
deriving DecidableEq

/-- Model of the `scripture_burrito` block (path → ingredient, insertion
ordered). -/
structure ScriptureBurrito where
  ingredients : List (String × Ingredient)
deriving DecidableEq

/-- A parsed metadata document.  Documents are modelled in the shape the
spec gives them: a `resource_metadata` block and a `scripture_burrito`
block (missing blocks are the all-empty records, matching the `.get(key,
{})` defaults in the source). -/
structure Metadata where
  resource_metadata : ResourceMeta
  scripture_burrito : ScriptureBurrito
deriving DecidableEq

/-- One `{path, label}` pair of the internal `json_files` sequence. -/
structure NavEntry where
  path : String
  label : String
deriving DecidableEq

/-- The `citation` block of a LanguageRecord. -/
structure Citation where
  title : Option String
  copyright_dates : Option String
  copyright_holder : Option String
  license_name : Option String
  adaptation_notice : Option String
deriving DecidableEq

/-- A LanguageRecord as assembled by `build_resource_data`.  `json_files`
is `Option` because the key is absent from records built by the script in
src (the newer extraction layer that fills it is not in src); arbitrary
records handled by the catalog projector may carry it. -/
structure LanguageRecord where
  code : String
  name : String
  title : Option String
  version : Option String
  resource_type : Option String
  content_type : Option String
  language : Option String
  first_json_path : Option String
  json_files : Option (List NavEntry)
  citation : Citation
  has_json : Bool
  has_md : Bool
  has_pdf : Bool
  has_docx : Bool
  has_usx : Bool
  has_usfm : Bool
  has_audio : Bool
deriving DecidableEq

/-- The per-repository `resource_data` dict.  `title` and `temp_title`
(Python key `'_temp_title'`) track key presence: `none` means the key is
absent, `some v` means present with (nullable) value `v`. -/
structure ResourceData where
  name : String
  description : Option String
  url : String
  languages : List (String × LanguageRecord)
  title : Option (Option String)
  temp_title : Option (Option String)
deriving DecidableEq

/-- A repository as returned by the listing endpoint. -/
structure Repo where
  name : String
  description : Option String
  url : String
  archived : Bool
deriving DecidableEq

/-- The filtered projection of a repository kept by `fetch_repositories`. -/
structure RepoInfo where
  name : String
  description : Option String
  url : String
deriving DecidableEq

/-- Observable outcome of one `GET .../metadata.json`: the HTTP status and,
for 200 responses, the parse result of the body (`none` = the body is not
valid JSON, so `response.json()` raises). -/
structure MetaResponse where
  status : Nat
  body : Option Metadata
deriving DecidableEq

/-- The external world of one build run: the repository-listing outcome
(`Except.error ()` = the listing fetch raised, which `build_resource_data`
does not catch), the directory listing behind `fetch_languages`, the
metadata responses behind `fetch_metadata`, and the existence probes behind
`check_directory_exists`. -/
structure Env where
  reposResult : Except Unit (List Repo)
  languages : String → List String
  metadata : String → String → MetaResponse
  dirExists : String → String → String → Bool

/-- The `LANGUAGE_MAP` table of the source. -/
def LANGUAGE_MAP : List (String × String) :=
  [("eng", "English"), ("spa", "Spanish"), ("fra", "French"),
   ("por", "Portuguese"), ("rus", "Russian"), ("arb", "Arabic"),
   ("hin", "Hindi"), ("jpn", "Japanese"), ("zht", "Chinese (Traditional)"),
   ("ind", "Indonesian"), ("nld", "Dutch"), ("swh", "Swahili"),
   ("nep", "Nepali"), ("tpi", "Tok Pisin"), ("apd", "Sudanese Arabic")]

/-- Source `get_language_name`: map lookup with upper-cased-code fallback. -/
def get_language_name (code : String) : String :=
  (LANGUAGE_MAP.lookup code).getD (strUpper code)

/-- The `EXCLUDED_REPOS` list of the source. -/
def EXCLUDED_REPOS : List String :=
  ["docs", "ACAI", "bibleaquifer.github.io", ".github"]

/-- Source `fetch_repositories`: the listing outcome filtered to
repositories that are neither excluded by name nor archived, projected to
`{name, description, url}`.  A failed listing fetch propagates. -/
def fetch_repositories (env : Env) : Except Unit (List RepoInfo) :=
  match env.reposResult with
  | .error e => .error e
  | .ok all_repos =>
    .ok ((all_repos.filter
          (fun r => !(EXCLUDED_REPOS.contains r.name) && !r.archived)).map
          (fun r => { name := r.name, description := r.description, url := r.url }))

/-- Source `fetch_metadata`: non-200 responses give `None`; a 200 response
whose body is not valid JSON raises (`response.json()` is outside the
try block), modelled as `Except.error ()`. -/
def fetch_metadata (r : MetaResponse) : Except Unit (Option Metadata) :=
  if r.status ≠ 200 then .ok none
  else
    match r.body with
    | some m => .ok (some m)
    | none => .error ()

/-- Source `get_first_json_path`: the path of the first ingredient whose
`mimeType` is `'text/json'`, in insertion order, with no path filtering. -/
def get_first_json_path (metadata : Option Metadata) : Option String :=
  match metadata with
  | none => none
  | some m =>
    ((m.scripture_burrito.ingredients.find?
        (fun p => p.2.mimeType == some "text/json")).map (fun p => p.1))

/-- Assembly of one LanguageRecord, the body of the `if metadata:` branch of
`build_resource_data` (title rule, adaptation-notice fallback, format
probes, first JSON path, citation and license-name resolution). -/
def buildLanguageRecord (env : Env) (repo_name lang : String) (m : Metadata)
    (english_metadata : Option Metadata) : LanguageRecord :=
  let resource_meta := m.resource_metadata
  let license_meta := resource_meta.license_info
  let title : Option String :=
    if lang = "eng" then pyOr resource_meta.title (some repo_name)
    else pyOr resource_meta.aquifer_name resource_meta.title
  let adaptation_notice : Option String :=
    match resource_meta.adaptation_notice, english_metadata with
    | some "", some em => em.resource_metadata.adaptation_notice
    | a, _ => a
  let license_name : Option String :=
    match license_meta.licenses with
    | [] => none
    | first_license :: _ =>
      let lang_code := resource_meta.language.getD "eng"
      match first_license.lookup lang_code with
      | some e => e.name
      | none =>
        match first_license.lookup "eng" with
        | some e => e.name
        | none => none
  { code := lang
    name := get_language_name lang
    title := title
    version := resource_meta.version
    resource_type := pyOr resource_meta.resource_type resource_meta.aquifer_type
    content_type := resource_meta.content_type
    language := resource_meta.language
    first_json_path := get_first_json_path (some m)
    json_files := none
    citation :=
      { title := license_meta.title
        copyright_dates := license_meta.copyright.dates
        copyright_holder := license_meta.copyright.holder.name
        license_name := license_name
        adaptation_notice := adaptation_notice }
    has_json := env.dirExists repo_name lang "json"
    has_md := env.dirExists repo_name lang "md"
    has_pdf := env.dirExists repo_name lang "pdf"
    has_docx := env.dirExists repo_name lang "docx"
    has_usx := env.dirExists repo_name lang "usx"
    has_usfm := env.dirExists repo_name lang "usfm"
    has_audio := env.dirExists repo_name lang "audio" }

/-- Python dict assignment on an association list: replace in place if the
key exists, else append. -/
def dictInsert {α : Type} : List (String × α) → String → α → List (String × α)
  | [], k, v => [(k, v)]
  | (k1, v1) :: rest, k, v =>
    if k1 = k then (k, v) :: rest else (k1, v1) :: dictInsert rest k v

/-- One iteration of the language loop after a successful metadata fetch:
store the LanguageRecord, then run the resource-title bookkeeping (`if
'title' not in resource_data: ...`). -/
def applyLang (lang : String) (r : LanguageRecord) (acc : ResourceData) :
    ResourceData :=
  let acc1 := { acc with languages := dictInsert acc.languages lang r }
  match acc.title with
  | some _ => acc1
  | none =>
    if lang = "eng" then { acc1 with title := some r.title }
    else { acc1 with temp_title := some r.title }

/-- The language loop of `build_resource_data`: fetch each language's
metadata in order; a `None` result contributes nothing, a raised exception
propagates. -/
def processLangList (env : Env) (name : String) (engM : Option Metadata) :
    List String → ResourceData → Except Unit ResourceData
  | [], acc => .ok acc
  | lang :: rest, acc =>
    match fetch_metadata (env.metadata name lang) with
    | .error e => .error e
    | .ok none => processLangList env name engM rest acc
    | .ok (some m) =>
      processLangList env name engM rest
        (applyLang lang (buildLanguageRecord env name lang m engM) acc)

/-- The retention epilogue of the repository loop: promote `'_temp_title'`
to `'title'`, or fall back to the camel-case split of the repository name;
always drop `'_temp_title'`. -/
def finalizeResource (repo_name : String) (acc : ResourceData) : ResourceData :=
  match acc.title with
  | none =>
    match acc.temp_title with
    | some t => { acc with title := some t, temp_title := none }
    | none => { acc with title := some (some (camelSplit repo_name)), temp_title := none }
  | some _ => { acc with temp_title := none }

/-- The initial `resource_data` dict of one repository. -/
def initAccum (repo : RepoInfo) : ResourceData :=
  { name := repo.name, description := repo.description, url := repo.url,
    languages := [], title := none, temp_title := none }

/-- One iteration of the repository loop: skip repositories with no language
directories; fetch the English metadata once up front (a raised exception
propagates); run the language loop; retain the record only when at least
one language produced metadata. -/
def processRepo (env : Env) (acc : List (String × ResourceData))
    (repo : RepoInfo) : Except Unit (List (String × ResourceData)) :=
  if (env.languages repo.name).isEmpty then .ok acc
  else
    match fetch_metadata (env.metadata repo.name "eng") with
    | .error e => .error e
    | .ok english_metadata =>
      match processLangList env repo.name english_metadata
          (env.languages repo.name) (initAccum repo) with
      | .error e => .error e
      | .ok rd =>
        if rd.languages.isEmpty then .ok acc
        else .ok (dictInsert acc repo.name (finalizeResource repo.name rd))

/-- The repository loop. -/
def processRepos (env : Env) :
    List RepoInfo → List (String × ResourceData) →
    Except Unit (List (String × ResourceData))
  | [], acc => .ok acc
  | r :: rest, acc =>
    match processRepo env acc r with
    | .error e => .error e
    | .ok acc1 => processRepos env rest acc1

/-- Source `build_resource_data` as a function of the external world. -/
def build_resource_data (env : Env) :
    Except Unit (List (String × ResourceData)) :=
  match fetch_repositories env with
  | .error e => .error e
  | .ok repositories => processRepos env repositories []

/-- Whether the language-metadata fetch for `(name, lang)` under `env`
yields a document (a 200 response with a valid body). -/
def producedB (env : Env) (name lang : String) : Bool :=
  match fetch_metadata (env.metadata name lang) with
  | .ok (some _) => true
  | _ => false

/-- The LanguageRecord that `(name, lang)` contributes under `env`, when
its metadata fetch yields a document. -/
def langRecord? (env : Env) (name : String) (engM : Option Metadata)
    (lang : String) : Option LanguageRecord :=
  match fetch_metadata (env.metadata name lang) with
  | .ok (some m) => some (buildLanguageRecord env name lang m engM)
  | _ => none

/-- Modelled from the spec: the 66-entry Bible-book code table behind
`get_bible_book_name`, a function the repository's test suite imports from
`build_site` but whose definition is not in src.  Codes are the USFM codes
named by the tests. -/
def BIBLE_BOOKS : List (String × String) :=
  [("GEN", "Genesis"), ("EXO", "Exodus"), ("LEV", "Leviticus"),
   ("NUM", "Numbers"), ("DEU", "Deuteronomy"), ("JOS", "Joshua"),
   ("JDG", "Judges"), ("RUT", "Ruth"), ("1SA", "1 Samuel"),
   ("2SA", "2 Samuel"), ("1KI", "1 Kings"), ("2KI", "2 Kings"),
   ("1CH", "1 Chronicles"), ("2CH", "2 Chronicles"), ("EZR", "Ezra"),
   ("NEH", "Nehemiah"), ("EST", "Esther"), ("JOB", "Job"),
   ("PSA", "Psalms"), ("PRO", "Proverbs"), ("ECC", "Ecclesiastes"),
   ("SNG", "Song of Songs"), ("ISA", "Isaiah"), ("JER", "Jeremiah"),
   ("LAM", "Lamentations"), ("EZK", "Ezekiel"), ("DAN", "Daniel"),
   ("HOS", "Hosea"), ("JOL", "Joel"), ("AMO", "Amos"),
   ("OBA", "Obadiah"), ("JON", "Jonah"), ("MIC", "Micah"),
   ("NAM", "Nahum"), ("HAB", "Habakkuk"), ("ZEP", "Zephaniah"),
   ("HAG", "Haggai"), ("ZEC", "Zechariah"), ("MAL", "Malachi"),
   ("MAT", "Matthew"), ("MRK", "Mark"), ("LUK", "Luke"),
   ("JHN", "John"), ("ACT", "Acts"), ("ROM", "Romans"),
   ("1CO", "1 Corinthians"), ("2CO", "2 Corinthians"), ("GAL", "Galatians"),
   ("EPH", "Ephesians"), ("PHP", "Philippians"), ("COL", "Colossians"),
   ("1TH", "1 Thessalonians"), ("2TH", "2 Thessalonians"),
   ("1TI", "1 Timothy"), ("2TI", "2 Timothy"), ("TIT", "Titus"),
   ("PHM", "Philemon"), ("HEB", "Hebrews"), ("JAS", "James"),
   ("1PE", "1 Peter"), ("2PE", "2 Peter"), ("1JN", "1 John"),
   ("2JN", "2 John"), ("3JN", "3 John"), ("JUD", "Jude"),
   ("REV", "Revelation")]

/-- Modelled from the spec: `get_bible_book_name` (missing from src) maps a
Bible-book code case-insensitively to its full English name; unknown codes
pass through unchanged, case preserved. -/
def get_bible_book_name (code : String) : String :=
  (BIBLE_BOOKS.lookup (strUpper code)).getD code

/-- Modelled from the spec: the fixed allow-list of Roman-script language
codes behind `is_roman_script_language` (missing from src), taken to be the
Roman-script members of `LANGUAGE_MAP`, consistent with the repository's
tests. -/
def ROMAN_SCRIPT_LANGUAGES : List String :=
  ["eng", "spa", "fra", "por", "ind", "nld", "swh", "tpi"]

/-- Modelled from the spec: `is_roman_script_language` (missing from src)
tests membership in the fixed allow-list. -/
def is_roman_script_language (lang_code : String) : Bool :=
  ROMAN_SCRIPT_LANGUAGES.contains lang_code

/-- Modelled from the spec: `transform_label` (missing from src; imported
by the repository's tests).  `canonical` does the case-insensitive book
lookup; `alphabetical` upper-cases the token for Roman-script languages;
`monograph` strips a leading `json/` directory; any other policy is the
identity. -/
def transform_label (raw_label order_policy language_code : String) : String :=
  if order_policy = "canonical" then get_bible_book_name raw_label
  else if order_policy = "alphabetical" then
    if is_roman_script_language language_code then strUpper raw_label
    else raw_label
  else if order_policy = "monograph" then
    if strStartsWith raw_label "json/" then strDrop raw_label 5 else raw_label
  else raw_label

/-- Modelled from the spec: the content-file directory pattern used by the
selection in `get_json_files_with_labels` (missing from src).  Per the spec
the path must live in the expected content-file directory, explicitly not
under the audio-timing subdirectory; per the repository's tests
`json/metadata.json` is excluded while `json/99.content.json` is selected,
so the pattern is a `json/` directory and a `.content.json` suffix. -/
def content_path_matches (path : String) : Bool :=
  strStartsWith path "json/" && strEndsWith path ".content.json"
    && !(strStartsWith path "audio/")

/-- Modelled from the spec: `get_json_files_with_labels` (missing from src;
imported by the repository's tests).  Select the ingredients whose
`mimeType` is the JSON content type and whose path matches the content-file
pattern, in ingredient order; label each from the first key of its `scope`,
falling back to the path, transformed under the `resource_metadata.order`
policy for the record's language. -/
def get_json_files_with_labels (metadata : Option Metadata)
    (lang_code : String) : List NavEntry :=
  match metadata with
  | none => []
  | some m =>
    let order := m.resource_metadata.order.getD ""
    ((m.scripture_burrito.ingredients.filter
        (fun p => p.2.mimeType == some "text/json" && content_path_matches p.1)).map
      (fun p =>
        let raw_label :=
          match p.2.scope with
          | some ((k, _) :: _) => k
          | _ => p.1
        { path := p.1, label := transform_label raw_label order lang_code }))

/-- Removal of the internal `json_files` field from one LanguageRecord,
every other field kept. -/
def stripLangRecord (lr : LanguageRecord) : LanguageRecord :=
  { lr with json_files := none }

/-- Removal of `json_files` from every LanguageRecord of one resource,
every other field kept. -/
def stripResource (rd : ResourceData) : ResourceData :=
  { rd with languages := rd.languages.map (fun q => (q.1, stripLangRecord q.2)) }

/-- Modelled from the spec: `get_catalog_resources` / `project_for_catalog`
(missing from src; imported by the repository's tests): a copy of the
resource map in which every LanguageRecord's `json_files` field is removed
and everything else is preserved. -/
def get_catalog_resources (resources : List (String × ResourceData)) :
    List (String × ResourceData) :=
  resources.map (fun p => (p.1, stripResource p.2))

/-- Modelled from the spec: `generate_nav_files` (missing from src; imported
by the repository's tests and by `generate_sample.py`): one JSON array per
(resource, language) whose `json_files` is present, at
`nav/<Resource>_<lang>.json`. -/
def generate_nav_files (resources : List (String × ResourceData)) :
    List (String × List NavEntry) :=
  resources.flatMap (fun p =>
    p.2.languages.filterMap (fun q =>
      q.2.json_files.map (fun fs => ("nav/" ++ p.1 ++ "_" ++ q.1 ++ ".json", fs))))

/-- Sort key of the resource-selector options: the jinja filter
`sort(attribute='1.title')` orders the `(id, record)` pairs by the record's
`title`. -/
def titleKey (rd : ResourceData) : String :=
  match rd.title with
  | some (some t) => t
  | _ => ""

/-- Ordered insertion for the stable sort of the option list. -/
def insertSorted {α : Type} (le : α → α → Bool) (x : α) : List α → List α
  | [] => [x]
  | y :: ys => if le x y then x :: y :: ys else y :: insertSorted le x ys

/-- Stable insertion sort used to model the jinja `sort` filter. -/
def sortBy {α : Type} (le : α → α → Bool) : List α → List α
  | [] => []
  | x :: xs => insertSorted le x (sortBy le xs)

/-- The data content of the rendered catalog page: the sorted dropdown
options, the inline `RESOURCES_DATA` payload (`json.dumps(resources)` of
the argument, verbatim), and the organization name. -/
structure CatalogHtml where
  option_entries : List (String × ResourceData)
  resources_json : List (String × ResourceData)
  org_name : String
deriving DecidableEq

/-- The `ORG_NAME` constant of the source. -/
def ORG_NAME : String := "BibleAquifer"

/-- Source `generate_catalog_html`, restricted to its data content: the
template renders one `option` per resource sorted by title, and embeds
`json.dumps(resources, indent=2)` of the `resources` argument as the
`RESOURCES_DATA` payload. -/
def generate_catalog_html (resources : List (String × ResourceData)) :
    CatalogHtml :=
  { option_entries := sortBy (fun a b => decide (titleKey a.2 ≤ titleKey b.2)) resources
    resources_json := resources
    org_name := ORG_NAME }

/-- ASCII lower-casing of one character (inverse direction of
`asciiUpperChar`), used to state case-insensitivity. -/
def asciiLowerChar (c : Char) : Char :=
  if 'A' ≤ c ∧ c ≤ 'Z' then Char.ofNat (c.toNat + 32) else c

/-- ASCII `str.lower()`. -/
def strLower (s : String) : String :=
  ⟨s.data.map asciiLowerChar⟩

/-- The last element of a list, if any (the value left in a slot that each
loop iteration overwrites). -/
def lastOpt {α : Type} : List α → Option α
  | [] => none
  | [a] => some a
  | _ :: b :: l => lastOpt (b :: l)

/-- The English metadata document fetched once per repository, on runs
where that fetch does not raise. -/
def engDoc (env : Env) (name : String) : Option Metadata :=
  match fetch_metadata (env.metadata name "eng") with
  | .ok o => o
  | .error _ => none

/-- Properties every retained record of a successful `build_resource_data`
run satisfies: its `name` is its key; the `'_temp_title'` key is gone; its
language map holds exactly the languages that produced metadata, each with
its extracted record; the resource title agrees with the English record
when one exists and otherwise with the record of the last language that
produced metadata; and at least one language produced metadata. -/
def GoodRecord (env : Env) (name : String) (rd : ResourceData) : Prop :=
  rd.name = name
  ∧ rd.temp_title = none
  ∧ (∀ k, rd.languages.lookup k =
      if k ∈ env.languages name ∧ producedB env name k = true
      then langRecord? env name (engDoc env name) k else none)
  ∧ (∀ lr, rd.languages.lookup "eng" = some lr → rd.title = some lr.title)
  ∧ (rd.languages.lookup "eng" = none →
      ∃ l lr,
        lastOpt ((env.languages name).filter (fun s => producedB env name s)) = some l
        ∧ rd.languages.lookup l = some lr ∧ rd.title = some lr.title)
  ∧ rd.languages ≠ []

/-- A license-info block with every field empty (the `.get(key, {})`
default). -/
def licEmpty : LicenseInfo :=
  { title := none, copyright := { dates := none, holder := { name := none } },
    licenses := [] }

/-- A resource-metadata block with every field empty. -/
def rmEmpty : ResourceMeta :=
  { title := none, aquifer_name := none, version := none,
    resource_type := none, aquifer_type := none, content_type := none,
    language := none, order := none, adaptation_notice := none,
    license_info := licEmpty }

/-- A metadata document with no populated fields. -/
def metaEmpty : Metadata :=
  { resource_metadata := rmEmpty, scripture_burrito := { ingredients := [] } }

/-- Spanish metadata whose `aquifer_name` is "Titulo A". -/
def metaTituloA : Metadata :=
  { metaEmpty with resource_metadata := { rmEmpty with aquifer_name := some "Titulo A" } }

/-- French metadata whose `aquifer_name` is "Titulo B". -/
def metaTituloB : Metadata :=
  { metaEmpty with resource_metadata := { rmEmpty with aquifer_name := some "Titulo B" } }

/-- Spanish metadata carrying only a Spanish title. -/
def metaSpanish : Metadata :=
  { metaEmpty with resource_metadata := { rmEmpty with aquifer_name := some "Titulo en Espanol" } }

/-- English metadata carrying the English title. -/
def metaEnglishTitle : Metadata :=
  { metaEmpty with resource_metadata := { rmEmpty with title := some "English Title Here" } }

/-- English metadata carrying an adaptation notice. -/
def metaEngNotice : Metadata :=
  { metaEmpty with resource_metadata :=
      { rmEmpty with adaptation_notice := some "English notice" } }

/-- Metadata whose `adaptation_notice` is present but empty. -/
def metaEmptyNotice : Metadata :=
  { metaEmpty with resource_metadata := { rmEmpty with adaptation_notice := some "" } }

/-- A metadata document whose first JSON-typed ingredient is an
audio-timing file and whose second is a content file. -/
def metaAudioFirst : Metadata :=
  { metaEmpty with scripture_burrito :=
    { ingredients :=
        [("audio/timing/01.json", { mimeType := some "text/json", scope := none }),
         ("json/01.content.json", { mimeType := some "text/json", scope := none })] } }

/-- A metadata document whose JSON-typed ingredients all live in the
content-file directory. -/
def metaContentOnly : Metadata :=
  { metaEmpty with
    resource_metadata := { rmEmpty with order := some "canonical" },
    scripture_burrito :=
    { ingredients :=
        [("json/01.content.json",
          { mimeType := some "text/json", scope := some [("GEN", [])] }),
         ("usfm/01-GEN.usfm", { mimeType := some "text/x-usfm", scope := none })] } }

/-- An environment with an empty repository listing and failing fetches. -/
def env0 : Env :=
  { reposResult := .ok []
    languages := fun _ => []
    metadata := fun _ _ => { status := 404, body := none }
    dirExists := fun _ _ _ => false }

/-- Environment for the title-overwrite run: one repository whose language
directories are Spanish then French, both with metadata, English absent. -/
def envTwoLangs : Env :=
  { reposResult := .ok [{ name := "RepoX", description := some "d", url := "u", archived := false }]
    languages := fun n => if n = "RepoX" then ["spa", "fra"] else []
    metadata := fun n l =>
      if n = "RepoX" ∧ l = "spa" then { status := 200, body := some metaTituloA }
      else if n = "RepoX" ∧ l = "fra" then { status := 200, body := some metaTituloB }
      else { status := 404, body := none }
    dirExists := fun _ _ _ => false }

/-- Environment for the Spanish-before-English run of the spec's
title-priority example. -/
def envSpaEng : Env :=
  { reposResult := .ok [{ name := "RepoY", description := none, url := "u", archived := false }]
    languages := fun n => if n = "RepoY" then ["spa", "eng"] else []
    metadata := fun n l =>
      if n = "RepoY" ∧ l = "spa" then { status := 200, body := some metaSpanish }
      else if n = "RepoY" ∧ l = "eng" then { status := 200, body := some metaEnglishTitle }
      else { status := 404, body := none }
    dirExists := fun _ _ _ => false }

/-- Environment with one language whose metadata endpoint answers 200 with
a body that is not valid JSON. -/
def envMalformed : Env :=
  { reposResult := .ok [{ name := "RepoZ", description := none, url := "u", archived := false }]
    languages := fun n => if n = "RepoZ" then ["spa"] else []
    metadata := fun n l =>
      if n = "RepoZ" ∧ l = "spa" then { status := 200, body := none }
      else { status := 404, body := none }
    dirExists := fun _ _ _ => false }

/-- The resource map built over `envTwoLangs`. -/
def resTwoLangs : List (String × ResourceData) :=
  match build_resource_data envTwoLangs with
  | .ok r => r
  | .error _ => []

/-- The retained record of `envTwoLangs`. -/
def rdTwoLangs : ResourceData :=
  match resTwoLangs.lookup "RepoX" with
  | some rd => rd
  | none => initAccum { name := "", description := none, url := "" }

/-- The resource map built over `envSpaEng`. -/
def resSpaEng : List (String × ResourceData) :=
  match build_resource_data envSpaEng with
  | .ok r => r
  | .error _ => []

/-- The retained record of `envSpaEng`. -/
def rdSpaEng : ResourceData :=
  match resSpaEng.lookup "RepoY" with
  | some rd => rd
  | none => initAccum { name := "", description := none, url := "" }

/-- The English LanguageRecord of `envSpaEng`. -/
def lrSpaEng : LanguageRecord :=
  match rdSpaEng.languages.lookup "eng" with
  | some lr => lr
  | none => buildLanguageRecord env0 "x" "x" metaEmpty none

/-- A LanguageRecord carrying a populated internal `json_files` field, as
records of the newer extraction layer do. -/
def lrWithFiles : LanguageRecord :=
  { buildLanguageRecord env0 "X" "eng" metaEmpty none with
    json_files := some [{ path := "json/01.content.json", label := "Genesis" }] }

/-- A resource map carrying `json_files`. -/
def resWithFiles : List (String × ResourceData) :=
  [("X", { name := "X", description := none, url := "u",
           languages := [("eng", lrWithFiles)],
           title := some (some "T"), temp_title := none })]

/-! Helper lemmas about association lists with dict-assignment semantics. -/

theorem dictInsert_lookup_self {α : Type} (l : List (String × α)) (k : String)
    (v : α) : (dictInsert l k v).lookup k = some v := by
  induction l with
  | nil => simp [dictInsert, List.lookup]
  | cons p rest ih =>
    obtain ⟨k1, v1⟩ := p
    by_cases h : k1 = k
    · simp [dictInsert, h, List.lookup]
    · simp only [dictInsert, if_neg h, List.lookup]
      have hb : (k == k1) = false := by
        simp [beq_iff_eq]
        exact fun hkk => h hkk.symm
      simp [hb, ih]

theorem dictInsert_lookup_ne {α : Type} (l : List (String × α)) (k k2 : String)
    (v : α) (h : k2 ≠ k) : (dictInsert l k v).lookup k2 = l.lookup k2 := by
  induction l with
  | nil =>
    have hb : (k2 == k) = false := by simp [beq_iff_eq, h]
    simp [dictInsert, List.lookup, hb]
  | cons p rest ih =>
    obtain ⟨k1, v1⟩ := p
    by_cases h1 : k1 = k
    · subst h1
      simp only [dictInsert, if_pos rfl, List.lookup]
      have hb : (k2 == k1) = false := by simp [beq_iff_eq, h]
      simp [hb]
    · simp only [dictInsert, if_neg h1, List.lookup]
      by_cases h2 : k2 = k1
      · subst h2; simp
      · have hb : (k2 == k1) = false := by simp [beq_iff_eq, h2]
        simp [hb, ih]

theorem mem_dictInsert {α : Type} {l : List (String × α)} {k : String} {v : α}
    {p : String × α} (h : p ∈ dictInsert l k v) : p ∈ l ∨ p = (k, v) := by
  induction l with
  | nil => simp [dictInsert] at h; simp [h]
  | cons q rest ih =>
    obtain ⟨k1, v1⟩ := q
    by_cases h1 : k1 = k
    · simp only [dictInsert, if_pos h1] at h
      rcases List.mem_cons.mp h with h | h
      · right; exact h
      · left; exact List.mem_cons_of_mem _ h
    · simp only [dictInsert, if_neg h1] at h
      rcases List.mem_cons.mp h with h | h
      · left; simp [h]
      · rcases ih h with h | h
        · left; exact List.mem_cons_of_mem _ h
        · right; exact h

theorem dictInsert_ne_nil {α : Type} (l : List (String × α)) (k : String)
    (v : α) : dictInsert l k v ≠ [] := by
  cases l with
  | nil => simp [dictInsert]
  | cons p rest =>
    obtain ⟨k1, v1⟩ := p
    by_cases h : k1 = k <;> simp [dictInsert, h]

theorem lookup_head {α : Type} (k : String) (v : α) (rest : List (String × α)) :
    ((k, v) :: rest).lookup k = some v := by
  simp [List.lookup]

theorem mem_of_lookup_eq_some {α : Type} {l : List (String × α)} {k : String}
    {v : α} (h : l.lookup k = some v) : (k, v) ∈ l := by
  induction l with
  | nil => simp [List.lookup] at h
  | cons p rest ih =>
    obtain ⟨k1, v1⟩ := p
    by_cases hk : k = k1
    · subst hk
      simp [List.lookup] at h
      simp [h]
    · have hb : (k == k1) = false := by simp [beq_iff_eq, hk]
      simp only [List.lookup, hb] at h
      exact List.mem_cons_of_mem _ (ih h)

theorem lastOpt_mem {α : Type} : ∀ {l : List α} {a : α}, lastOpt l = some a → a ∈ l
  | [], a, h => by simp [lastOpt] at h
  | [b], a, h => by
    simp [lastOpt] at h
    simp [h]
  | b :: c :: l, a, h => by
    have : lastOpt (c :: l) = some a := h
    exact List.mem_cons_of_mem _ (lastOpt_mem this)

theorem lastOpt_isSome_of_ne_nil {α : Type} :
    ∀ {l : List α}, l ≠ [] → ∃ a, lastOpt l = some a
  | [], h => absurd rfl h
  | [b], _ => ⟨b, rfl⟩
  | b :: c :: l, _ => by
    obtain ⟨a, ha⟩ := lastOpt_isSome_of_ne_nil (l := c :: l) (by simp)
    exact ⟨a, ha⟩

theorem lastOpt_cons_of_ne_nil {α : Type} (a : α) {l : List α} (h : l ≠ []) :
    lastOpt (a :: l) = lastOpt l := by
  cases l with
  | nil => exact absurd rfl h
  | cons b m => rfl

/-! Projection lemmas for one iteration of the language loop. -/

theorem applyLang_languages (lang : String) (r : LanguageRecord)
    (acc : ResourceData) :
    (applyLang lang r acc).languages = dictInsert acc.languages lang r := by
  unfold applyLang
  cases acc.title with
  | some v => rfl
  | none => by_cases h : lang = "eng" <;> simp [h]

theorem applyLang_name (lang : String) (r : LanguageRecord)
    (acc : ResourceData) : (applyLang lang r acc).name = acc.name := by
  unfold applyLang
  cases acc.title with
  | some v => rfl
  | none => by_cases h : lang = "eng" <;> simp [h]

theorem applyLang_title (lang : String) (r : LanguageRecord)
    (acc : ResourceData) :
    (applyLang lang r acc).title =
      if acc.title = none ∧ lang = "eng" then some r.title else acc.title := by
  unfold applyLang
  cases acc.title with
  | some v => simp
  | none => by_cases h : lang = "eng" <;> simp [h]

theorem applyLang_temp (lang : String) (r : LanguageRecord)
    (acc : ResourceData) :
    (applyLang lang r acc).temp_title =
      if acc.title = none ∧ lang ≠ "eng" then some r.title
      else acc.temp_title := by
  unfold applyLang
  cases acc.title with
  | some v => simp
  | none => by_cases h : lang = "eng" <;> simp [h]

/-! Characterization of a completed language loop. -/

theorem producedB_eq_true {env : Env} {name lang : String}
    (h : producedB env name lang = true) :
    ∃ m, fetch_metadata (env.metadata name lang) = .ok (some m) := by
  unfold producedB at h
  rcases hf : fetch_metadata (env.metadata name lang) with e | mo
  · rw [hf] at h; simp at h
  · cases mo with
    | none => rw [hf] at h; simp at h
    | some m => exact ⟨m, rfl⟩

theorem producedB_of_fetch {env : Env} {name lang : String} {m : Metadata}
    (h : fetch_metadata (env.metadata name lang) = .ok (some m)) :
    producedB env name lang = true := by
  unfold producedB
  rw [h]

theorem langRecord_of_fetch {env : Env} {name lang : String} {m : Metadata}
    (engM : Option Metadata)
    (h : fetch_metadata (env.metadata name lang) = .ok (some m)) :
    langRecord? env name engM lang =
      some (buildLanguageRecord env name lang m engM) := by
  unfold langRecord?
  rw [h]

theorem processLangList_lookup (env : Env) (name : String)
    (engM : Option Metadata) :
    ∀ (langs : List String) (acc acc2 : ResourceData),
      processLangList env name engM langs acc = .ok acc2 →
      ∀ k, acc2.languages.lookup k =
        if k ∈ langs ∧ producedB env name k = true
        then langRecord? env name engM k
        else acc.languages.lookup k
  | [], acc, acc2, h, k => by
    simp only [processLangList] at h
    cases h
    simp
  | lang :: rest, acc, acc2, h, k => by
    simp only [processLangList] at h
    rcases hf : fetch_metadata (env.metadata name lang) with e | mo
    · rw [hf] at h; cases h
    · rw [hf] at h
      cases mo with
      | none =>
        have hp : producedB env name lang = false := by
          unfold producedB; rw [hf]
        have ih := processLangList_lookup env name engM rest acc acc2 h k
        by_cases hk : k = lang
        · subst hk
          rw [ih]
          by_cases hr : k ∈ rest ∧ producedB env name k = true
          · rw [if_pos hr, if_pos ⟨List.mem_cons_of_mem _ hr.1, hr.2⟩]
          · rw [if_neg hr, if_neg (fun hc => hr ⟨by
              rcases List.mem_cons.mp hc.1 with h1 | h1
              · exact absurd hc.2 (by rw [hp]; simp)
              · exact h1, hc.2⟩)]
        · rw [ih]
          by_cases hr : k ∈ rest ∧ producedB env name k = true
          · rw [if_pos hr, if_pos ⟨List.mem_cons_of_mem _ hr.1, hr.2⟩]
          · rw [if_neg hr, if_neg (fun hc => hr ⟨by
              rcases List.mem_cons.mp hc.1 with h1 | h1
              · exact absurd h1 hk
              · exact h1, hc.2⟩)]
      | some m =>
        have hp : producedB env name lang = true := producedB_of_fetch hf
        have ih := processLangList_lookup env name engM rest
          (applyLang lang (buildLanguageRecord env name lang m engM) acc) acc2 h k
        rw [applyLang_languages] at ih
        by_cases hr : k ∈ rest ∧ producedB env name k = true
        · rw [ih, if_pos hr, if_pos ⟨List.mem_cons_of_mem _ hr.1, hr.2⟩]
        · rw [ih, if_neg hr]
          by_cases hk : k = lang
          · subst hk
            rw [dictInsert_lookup_self,
              if_pos ⟨List.mem_cons_self _ _, hp⟩,
              langRecord_of_fetch engM hf]
          · rw [dictInsert_lookup_ne _ _ _ _ hk, if_neg (fun hc => hr ⟨by
              rcases List.mem_cons.mp hc.1 with h1 | h1
              · exact absurd h1 hk
              · exact h1, hc.2⟩)]

theorem processLangList_name (env : Env) (name : String)
    (engM : Option Metadata) :
    ∀ (langs : List String) (acc acc2 : ResourceData),
      processLangList env name engM langs acc = .ok acc2 →
      acc2.name = acc.name
  | [], acc, acc2, h => by
    simp only [processLangList] at h
    cases h
    rfl
  | lang :: rest, acc, acc2, h => by
    simp only [processLangList] at h
    rcases hf : fetch_metadata (env.metadata name lang) with e | mo
    · rw [hf] at h; cases h
    · rw [hf] at h
      cases mo with
      | none => exact processLangList_name env name engM rest acc acc2 h
      | some m =>
        have ih := processLangList_name env name engM rest _ acc2 h
        rw [ih, applyLang_name]

theorem processLangList_title (env : Env) (name : String)
    (engM : Option Metadata) :
    ∀ (langs : List String) (acc acc2 : ResourceData),
      processLangList env name engM langs acc = .ok acc2 →
      acc2.title =
        match acc.title with
        | some v => some v
        | none =>
          if "eng" ∈ langs
          then (langRecord? env name engM "eng").map (fun r => r.title)
          else none
  | [], acc, acc2, h => by
    simp only [processLangList] at h
    cases h
    cases acc.title <;> simp
  | lang :: rest, acc, acc2, h => by
    simp only [processLangList] at h
    rcases hf : fetch_metadata (env.metadata name lang) with e | mo
    · rw [hf] at h; cases h
    · rw [hf] at h
      cases mo with
      | none =>
        have ih := processLangList_title env name engM rest acc acc2 h
        rw [ih]
        cases ht : acc.title with
        | some v => simp
        | none =>
          simp only []
          by_cases he : "eng" ∈ rest
          · rw [if_pos he, if_pos (List.mem_cons_of_mem _ he)]
          · rw [if_neg he]
            by_cases hel : "eng" = lang
            · subst hel
              rw [if_pos (List.mem_cons_self _ _)]
              have : langRecord? env name engM "eng" = none := by
                unfold langRecord?; rw [hf]
              rw [this]
              rfl
            · rw [if_neg (fun hc => by
                rcases List.mem_cons.mp hc with h1 | h1
                · exact hel h1
                · exact he h1)]
      | some m =>
        have ih := processLangList_title env name engM rest _ acc2 h
        rw [ih, applyLang_title]
        cases ht : acc.title with
        | some v => simp
        | none =>
          simp only [true_and]
          by_cases hel : lang = "eng"
          · subst hel
            rw [if_pos rfl]
            simp only []
            rw [if_pos (List.mem_cons_self _ _)]
            have : langRecord? env name engM "eng" =
                some (buildLanguageRecord env name "eng" m engM) :=
              langRecord_of_fetch engM hf
            rw [this]
            rfl
          · rw [if_neg hel]
            simp only []
            by_cases he : "eng" ∈ rest
            · rw [if_pos he, if_pos (List.mem_cons_of_mem _ he)]
            · rw [if_neg he, if_neg (fun hc => by
                rcases List.mem_cons.mp hc with h1 | h1
                · exact hel h1.symm
                · exact he h1)]

theorem processLangList_temp (env : Env) (name : String)
    (engM : Option Metadata) :
    ∀ (langs : List String) (acc acc2 : ResourceData),
      processLangList env name engM langs acc = .ok acc2 →
      acc.title = none →
      ¬("eng" ∈ langs ∧ producedB env name "eng" = true) →
      acc2.temp_title =
        match lastOpt (langs.filter (fun s => producedB env name s)) with
        | some l => (langRecord? env name engM l).map (fun r => r.title)
        | none => acc.temp_title
  | [], acc, acc2, h, _, _ => by
    simp only [processLangList] at h
    cases h
    rfl
  | lang :: rest, acc, acc2, h, ht, hne => by
    simp only [processLangList] at h
    rcases hf : fetch_metadata (env.metadata name lang) with e | mo
    · rw [hf] at h; cases h
    · rw [hf] at h
      have hner : ¬("eng" ∈ rest ∧ producedB env name "eng" = true) :=
        fun hc => hne ⟨List.mem_cons_of_mem _ hc.1, hc.2⟩
      cases mo with
      | none =>
        have hp : producedB env name lang = false := by
          unfold producedB; rw [hf]
        have ih := processLangList_temp env name engM rest acc acc2 h ht hner
        rw [ih]
        have : (lang :: rest).filter (fun s => producedB env name s) =
            rest.filter (fun s => producedB env name s) := by
          simp [List.filter, hp]
        rw [this]
      | some m =>
        have hp : producedB env name lang = true := producedB_of_fetch hf
        have hlne : lang ≠ "eng" := by
          intro hc
          exact hne ⟨by rw [← hc]; exact List.mem_cons_self _ _, by rw [← hc]; exact hp⟩
        have ht1 : (applyLang lang (buildLanguageRecord env name lang m engM) acc).title = none := by
          rw [applyLang_title, if_neg (fun hc => hlne hc.2), ht]
        have ih := processLangList_temp env name engM rest _ acc2 h ht1 hner
        rw [ih]
        have hfl : (lang :: rest).filter (fun s => producedB env name s) =
            lang :: rest.filter (fun s => producedB env name s) := by
          simp [List.filter, hp]
        rw [hfl]
        have htmp : (applyLang lang (buildLanguageRecord env name lang m engM) acc).temp_title =
            some (buildLanguageRecord env name lang m engM).title := by
          rw [applyLang_temp, if_pos ⟨ht, hlne⟩]
        cases hrest : lastOpt (rest.filter (fun s => producedB env name s)) with
        | some l =>
          have hnil : rest.filter (fun s => producedB env name s) ≠ [] := by
            intro hc
            rw [hc] at hrest
            simp [lastOpt] at hrest
          rw [lastOpt_cons_of_ne_nil _ hnil, hrest]
        | none =>
          have hnil : rest.filter (fun s => producedB env name s) = [] := by
            rcases hc : rest.filter (fun s => producedB env name s) with _ | ⟨a, as⟩
            · rfl
            · rw [hc] at hrest
              obtain ⟨b, hb⟩ := lastOpt_isSome_of_ne_nil (l := a :: as) (by simp)
              rw [hb] at hrest
              cases hrest
          rw [hnil]
          simp only [lastOpt]
          rw [htmp, langRecord_of_fetch engM hf]
          rfl

theorem processLangList_nil_iff (env : Env) (name : String)
    (engM : Option Metadata) :
    ∀ (langs : List String) (acc acc2 : ResourceData),
      processLangList env name engM langs acc = .ok acc2 →
      (acc2.languages = [] ↔
        acc.languages = [] ∧ ∀ l ∈ langs, producedB env name l = false)
  | [], acc, acc2, h => by
    simp only [processLangList] at h
    cases h
    simp
  | lang :: rest, acc, acc2, h => by
    simp only [processLangList] at h
    rcases hf : fetch_metadata (env.metadata name lang) with e | mo
    · rw [hf] at h; cases h
    · rw [hf] at h
      cases mo with
      | none =>
        have hp : producedB env name lang = false := by
          unfold producedB; rw [hf]
        have ih := processLangList_nil_iff env name engM rest acc acc2 h
        rw [ih]
        constructor
        · rintro ⟨h1, h2⟩
          exact ⟨h1, fun l hl => by
            rcases List.mem_cons.mp hl with h3 | h3
            · rw [h3]; exact hp
            · exact h2 l h3⟩
        · rintro ⟨h1, h2⟩
          exact ⟨h1, fun l hl => h2 l (List.mem_cons_of_mem _ hl)⟩
      | some m =>
        have hp : producedB env name lang = true := producedB_of_fetch hf
        have ih := processLangList_nil_iff env name engM rest _ acc2 h
        rw [ih, applyLang_languages]
        constructor
        · rintro ⟨h1, _⟩
          exact absurd h1 (dictInsert_ne_nil _ _ _)
        · rintro ⟨_, h2⟩
          have := h2 lang (List.mem_cons_self _ _)
          rw [hp] at this
          cases this

/-! Properties of the retention epilogue. -/

theorem finalize_temp (n : String) (a : ResourceData) :
    (finalizeResource n a).temp_title = none := by
  unfold finalizeResource
  cases a.title with
  | some v => rfl
  | none => cases a.temp_title <;> rfl

theorem finalize_languages (n : String) (a : ResourceData) :
    (finalizeResource n a).languages = a.languages := by
  unfold finalizeResource
  cases a.title with
  | some v => rfl
  | none => cases a.temp_title <;> rfl

theorem finalize_name (n : String) (a : ResourceData) :
    (finalizeResource n a).name = a.name := by
  unfold finalizeResource
  cases a.title with
  | some v => rfl
  | none => cases a.temp_title <;> rfl

theorem finalize_title_of_some (n : String) (a : ResourceData)
    (v : Option String) (h : a.title = some v) :
    (finalizeResource n a).title = some v := by
  unfold finalizeResource
  rw [h]

theorem finalize_title_of_temp (n : String) (a : ResourceData)
    (t : Option String) (h : a.title = none) (h2 : a.temp_title = some t) :
    (finalizeResource n a).title = some t := by
  unfold finalizeResource
  rw [h, h2]

theorem langRecord_none_of_not_produced {env : Env} {name lang : String}
    (engM : Option Metadata) (h : producedB env name lang = false) :
    langRecord? env name engM lang = none := by
  unfold producedB at h
  unfold langRecord?
  rcases hf : fetch_metadata (env.metadata name lang) with e | mo
  · rfl
  · cases mo with
    | none => rfl
    | some m => rw [hf] at h; simp at h

/-- A record that survives the retention check of one repository iteration
satisfies every `GoodRecord` property. -/
theorem retained_good (env : Env) (repo : RepoInfo) (engM : Option Metadata)
    (rd0 : ResourceData)
    (hE : fetch_metadata (env.metadata repo.name "eng") = .ok engM)
    (h : processLangList env repo.name engM (env.languages repo.name)
          (initAccum repo) = .ok rd0)
    (hne : ¬rd0.languages.isEmpty) :
    GoodRecord env repo.name (finalizeResource repo.name rd0) := by
  have hengDoc : engDoc env repo.name = engM := by
    unfold engDoc
    rw [hE]
  have hinitlang : (initAccum repo).languages = [] := rfl
  have hinittitle : (initAccum repo).title = none := rfl
  have hinittemp : (initAccum repo).temp_title = none := rfl
  have hnil : rd0.languages ≠ [] := by
    intro hc
    rw [hc] at hne
    exact hne rfl
  have hchar := processLangList_lookup env repo.name engM _ _ _ h
  have hchar2 : ∀ k, rd0.languages.lookup k =
      if k ∈ env.languages repo.name ∧ producedB env repo.name k = true
      then langRecord? env repo.name engM k else none := by
    intro k
    rw [hchar k, hinitlang]
    rfl
  have htitle := processLangList_title env repo.name engM _ _ _ h
  rw [hinittitle] at htitle
  refine ⟨?_, finalize_temp _ _, ?_, ?_, ?_, ?_⟩
  · rw [finalize_name, processLangList_name env repo.name engM _ _ _ h]
    rfl
  · intro k
    rw [finalize_languages, hchar2 k, hengDoc]
  · intro lr hlr
    rw [finalize_languages] at hlr
    rw [hchar2 "eng"] at hlr
    by_cases hc : "eng" ∈ env.languages repo.name ∧ producedB env repo.name "eng" = true
    · rw [if_pos hc] at hlr
      have : rd0.title = some lr.title := by
        rw [htitle]
        simp only []
        rw [if_pos hc.1, hlr]
        rfl
      exact finalize_title_of_some _ _ _ this
    · rw [if_neg hc] at hlr
      cases hlr
  · intro hnone
    rw [finalize_languages] at hnone
    have hcnot : ¬("eng" ∈ env.languages repo.name ∧ producedB env repo.name "eng" = true) := by
      intro hc
      rw [hchar2 "eng", if_pos hc] at hnone
      obtain ⟨m, hm⟩ := producedB_eq_true hc.2
      rw [langRecord_of_fetch engM hm] at hnone
      cases hnone
    have hT0 : rd0.title = none := by
      rw [htitle]
      simp only []
      by_cases he : "eng" ∈ env.languages repo.name
      · rw [if_pos he]
        have hp : producedB env repo.name "eng" = false := by
          cases hb : producedB env repo.name "eng"
          · rfl
          · exact absurd ⟨he, hb⟩ hcnot
        rw [langRecord_none_of_not_produced engM hp]
        rfl
      · rw [if_neg he]
    have hex : ∃ l ∈ env.languages repo.name, producedB env repo.name l = true := by
      have hiff := processLangList_nil_iff env repo.name engM _ _ _ h
      rw [hinitlang] at hiff
      by_contra hno
      push_neg at hno
      exact hnil (hiff.mpr ⟨rfl, fun l hl => by
        cases hb : producedB env repo.name l
        · rfl
        · exact absurd hb (hno l hl)⟩)
    obtain ⟨l1, hl1, hp1⟩ := hex
    have hfilne : (env.languages repo.name).filter
        (fun s => producedB env repo.name s) ≠ [] := by
      intro hc
      have : l1 ∈ (env.languages repo.name).filter
          (fun s => producedB env repo.name s) :=
        List.mem_filter.mpr ⟨hl1, hp1⟩
      rw [hc] at this
      cases this
    obtain ⟨l0, hl0⟩ := lastOpt_isSome_of_ne_nil hfilne
    have hl0mem := List.mem_filter.mp (lastOpt_mem hl0)
    obtain ⟨m0, hm0⟩ := producedB_eq_true hl0mem.2
    have htemp := processLangList_temp env repo.name engM _ _ _ h hinittitle hcnot
    rw [hl0, hinittemp] at htemp
    have htemp2 : rd0.temp_title =
        Option.map (fun r => r.title) (langRecord? env repo.name engM l0) := htemp
    rw [langRecord_of_fetch engM hm0] at htemp2
    refine ⟨l0, buildLanguageRecord env repo.name l0 m0 engM, hl0, ?_, ?_⟩
    · rw [finalize_languages, hchar2 l0, if_pos ⟨hl0mem.1, hl0mem.2⟩,
        langRecord_of_fetch engM hm0]
    · exact finalize_title_of_temp _ _ _ hT0 htemp2
  · rw [finalize_languages]
    exact hnil

/-! Lemmas about the repository loop. -/

theorem processRepo_lookup (env : Env) (acc : List (String × ResourceData))
    (repo : RepoInfo) (acc2 : List (String × ResourceData))
    (h : processRepo env acc repo = .ok acc2) :
    ∀ name rd, acc2.lookup name = some rd →
      acc.lookup name = some rd ∨ (name = repo.name ∧ GoodRecord env name rd) := by
  intro name rd hrd
  unfold processRepo at h
  split at h
  · cases h
    left
    exact hrd
  · split at h
    · cases h
    · next engM hE =>
      split at h
      · cases h
      · next rd0 hfold =>
        split at h
        · cases h
          left
          exact hrd
        · next hni =>
          cases h
          by_cases hn : name = repo.name
          · subst hn
            rw [dictInsert_lookup_self] at hrd
            cases hrd
            right
            exact ⟨rfl, retained_good env repo engM rd0 hE hfold hni⟩
          · rw [dictInsert_lookup_ne _ _ _ _ hn] at hrd
            left
            exact hrd

theorem processRepo_isSome (env : Env) (acc : List (String × ResourceData))
    (repo : RepoInfo) (acc2 : List (String × ResourceData))
    (h : processRepo env acc repo = .ok acc2) :
    ∀ name, (acc2.lookup name).isSome ↔
      (name = repo.name ∧
        ∃ l ∈ env.languages repo.name, producedB env repo.name l = true)
      ∨ (acc.lookup name).isSome := by
  intro name
  unfold processRepo at h
  split at h
  · next hl =>
    cases h
    have hlangnil : env.languages repo.name = [] := by
      rcases hc : env.languages repo.name with _ | ⟨a, as⟩
      · rfl
      · rw [hc] at hl; simp at hl
    constructor
    · intro hs
      right
      exact hs
    · rintro (⟨_, l, hmem, _⟩ | hs)
      · rw [hlangnil] at hmem
        cases hmem
      · exact hs
  · split at h
    · cases h
    · next engM hE =>
      split at h
      · cases h
      · next rd0 hfold =>
        have hiff := processLangList_nil_iff env repo.name engM _ _ _ hfold
        split at h
        · next hni =>
          cases h
          have hnil : rd0.languages = [] := by
            rcases hc : rd0.languages with _ | ⟨a, as⟩
            · rfl
            · rw [hc] at hni; simp at hni
          have hall := (hiff.mp hnil).2
          constructor
          · intro hs
            right
            exact hs
          · rintro (⟨_, l, hmem, hp⟩ | hs)
            · rw [hall l hmem] at hp
              cases hp
            · exact hs
        · next hni =>
          cases h
          have hnil : rd0.languages ≠ [] := fun hc => hni (by rw [hc]; rfl)
          have hex : ∃ l ∈ env.languages repo.name, producedB env repo.name l = true := by
            by_contra hno
            push_neg at hno
            exact hnil (hiff.mpr ⟨rfl, fun l hl2 => by
              cases hb : producedB env repo.name l
              · rfl
              · exact absurd hb (hno l hl2)⟩)
          by_cases hn : name = repo.name
          · subst hn
            rw [dictInsert_lookup_self]
            constructor
            · intro _
              left
              exact ⟨rfl, hex⟩
            · intro _
              rfl
          · rw [dictInsert_lookup_ne _ _ _ _ hn]
            constructor
            · intro hs
              right
              exact hs
            · rintro (⟨hc, _⟩ | hs)
              · exact absurd hc hn
              · exact hs

theorem processRepos_lookup (env : Env) :
    ∀ (rs : List RepoInfo) (acc res : List (String × ResourceData)),
      processRepos env rs acc = .ok res →
      ∀ name rd, res.lookup name = some rd →
        acc.lookup name = some rd ∨ GoodRecord env name rd
  | [], acc, res, h, name, rd, hrd => by
    simp only [processRepos] at h
    cases h
    left
    exact hrd
  | r :: rest, acc, res, h, name, rd, hrd => by
    simp only [processRepos] at h
    rcases hp : processRepo env acc r with e | acc1
    · rw [hp] at h; cases h
    · rw [hp] at h
      rcases processRepos_lookup env rest acc1 res h name rd hrd with h1 | h1
      · rcases processRepo_lookup env acc r acc1 hp name rd h1 with h2 | h2
        · left; exact h2
        · right; exact h2.2
      · right; exact h1

theorem processRepos_isSome (env : Env) :
    ∀ (rs : List RepoInfo) (acc res : List (String × ResourceData)),
      processRepos env rs acc = .ok res →
      ∀ name, (res.lookup name).isSome ↔
        (∃ r ∈ rs, r.name = name ∧
          ∃ l ∈ env.languages name, producedB env name l = true)
        ∨ (acc.lookup name).isSome
  | [], acc, res, h, name => by
    simp only [processRepos] at h
    cases h
    simp
  | r :: rest, acc, res, h, name => by
    simp only [processRepos] at h
    rcases hp : processRepo env acc r with e | acc1
    · rw [hp] at h; cases h
    · rw [hp] at h
      rw [processRepos_isSome env rest acc1 res h name,
        processRepo_isSome env acc r acc1 hp name]
      constructor
      · rintro (⟨r2, hmem, hr2⟩ | (⟨hn, hex⟩ | hs))
        · left
          exact ⟨r2, List.mem_cons_of_mem _ hmem, hr2⟩
        · left
          refine ⟨r, List.mem_cons_self _ _, hn.symm, ?_⟩
          rw [hn]
          exact hex
        · right; exact hs
      · rintro (⟨r2, hmem, hr2, hex⟩ | hs)
        · rcases List.mem_cons.mp hmem with h1 | h1
          · right
            left
            refine ⟨by rw [← h1]; exact hr2.symm, ?_⟩
            rw [← h1, hr2]
            exact hex
          · left
            exact ⟨r2, h1, hr2, hex⟩
        · right; right; exact hs

/-- Every record a successful build retains satisfies `GoodRecord`. -/
theorem build_good (env : Env) (res : List (String × ResourceData))
    (h : build_resource_data env = .ok res) :
    ∀ name rd, res.lookup name = some rd → GoodRecord env name rd := by
  intro name rd hrd
  unfold build_resource_data at h
  rcases hf : fetch_repositories env with e | repositories
  · rw [hf] at h; cases h
  · rw [hf] at h
    rcases processRepos_lookup env repositories [] res h name rd hrd with h1 | h1
    · cases h1
    · exact h1

/-! Non-fatality: when no metadata endpoint answers 200 with an unparseable
body, every fetch succeeds and the whole build completes. -/

theorem fetch_ok_of_wellformed (r : MetaResponse)
    (h : r.status = 200 → r.body ≠ none) :
    ∃ o, fetch_metadata r = .ok o := by
  unfold fetch_metadata
  by_cases hs : r.status = 200
  · rcases hb : r.body with _ | m
    · exact absurd hb (h hs)
    · refine ⟨some m, ?_⟩
      rw [if_neg (by simp [hs])]
  · exact ⟨none, if_pos hs⟩

theorem processLangList_total (env : Env) (name : String)
    (engM : Option Metadata)
    (hok : ∀ lang, ∃ o, fetch_metadata (env.metadata name lang) = .ok o) :
    ∀ (langs : List String) (acc : ResourceData),
      ∃ acc2, processLangList env name engM langs acc = .ok acc2
  | [], acc => ⟨acc, rfl⟩
  | lang :: rest, acc => by
    obtain ⟨o, ho⟩ := hok lang
    cases o with
    | none =>
      obtain ⟨acc2, h2⟩ := processLangList_total env name engM hok rest acc
      exact ⟨acc2, by simp only [processLangList]; rw [ho]; exact h2⟩
    | some m =>
      obtain ⟨acc2, h2⟩ := processLangList_total env name engM hok rest
        (applyLang lang (buildLanguageRecord env name lang m engM) acc)
      exact ⟨acc2, by simp only [processLangList]; rw [ho]; exact h2⟩

theorem processRepo_total (env : Env)
    (hok : ∀ name lang, ∃ o, fetch_metadata (env.metadata name lang) = .ok o)
    (acc : List (String × ResourceData)) (repo : RepoInfo) :
    ∃ acc2, processRepo env acc repo = .ok acc2 := by
  unfold processRepo
  by_cases hl : (env.languages repo.name).isEmpty
  · exact ⟨acc, if_pos hl⟩
  · rw [if_neg hl]
    obtain ⟨engO, hE⟩ := hok repo.name "eng"
    rw [hE]
    obtain ⟨rd0, hfold⟩ := processLangList_total env repo.name engO
      (hok repo.name) (env.languages repo.name) (initAccum repo)
    show ∃ acc2,
      (match processLangList env repo.name engO (env.languages repo.name)
          (initAccum repo) with
        | Except.error e => Except.error e
        | Except.ok rd =>
          if rd.languages.isEmpty = true then Except.ok acc
          else Except.ok (dictInsert acc repo.name (finalizeResource repo.name rd)))
        = Except.ok acc2
    rw [hfold]
    by_cases hni : rd0.languages.isEmpty
    · exact ⟨acc, if_pos hni⟩
    · exact ⟨_, if_neg hni⟩

theorem processRepos_total (env : Env)
    (hok : ∀ name lang, ∃ o, fetch_metadata (env.metadata name lang) = .ok o) :
    ∀ (rs : List RepoInfo) (acc : List (String × ResourceData)),
      ∃ res, processRepos env rs acc = .ok res
  | [], acc => ⟨acc, rfl⟩
  | r :: rest, acc => by
    obtain ⟨acc1, h1⟩ := processRepo_total env hok acc r
    obtain ⟨res, h2⟩ := processRepos_total env hok rest acc1
    exact ⟨res, by simp only [processRepos]; rw [h1]; exact h2⟩

/-! Every language record the build emits leaves the internal `json_files`
key absent. -/

theorem buildLanguageRecord_jf (env : Env) (repo_name lang : String)
    (m : Metadata) (engM : Option Metadata) :
    (buildLanguageRecord env repo_name lang m engM).json_files = none := rfl

theorem processLangList_jf (env : Env) (name : String)
    (engM : Option Metadata) :
    ∀ (langs : List String) (acc acc2 : ResourceData),
      processLangList env name engM langs acc = .ok acc2 →
      (∀ q ∈ acc.languages, q.2.json_files = none) →
      ∀ q ∈ acc2.languages, q.2.json_files = none
  | [], acc, acc2, h, hacc => by
    simp only [processLangList] at h
    cases h
    exact hacc
  | lang :: rest, acc, acc2, h, hacc => by
    simp only [processLangList] at h
    rcases hf : fetch_metadata (env.metadata name lang) with e | mo
    · rw [hf] at h; cases h
    · rw [hf] at h
      cases mo with
      | none => exact processLangList_jf env name engM rest acc acc2 h hacc
      | some m =>
        refine processLangList_jf env name engM rest _ acc2 h ?_
        rw [applyLang_languages]
        intro q hq
        rcases mem_dictInsert hq with h1 | h1
        · exact hacc q h1
        · rw [h1]
          exact buildLanguageRecord_jf env name lang m engM

theorem processRepo_jf (env : Env) (acc : List (String × ResourceData))
    (repo : RepoInfo) (acc2 : List (String × ResourceData))
    (h : processRepo env acc repo = .ok acc2)
    (hacc : ∀ p ∈ acc, ∀ q ∈ p.2.languages, q.2.json_files = none) :
    ∀ p ∈ acc2, ∀ q ∈ p.2.languages, q.2.json_files = none := by
  unfold processRepo at h
  split at h
  · cases h; exact hacc
  · split at h
    · cases h
    · next engM hE =>
      split at h
      · cases h
      · next rd0 hfold =>
        split at h
        · cases h; exact hacc
        · cases h
          intro p hp
          rcases mem_dictInsert hp with h1 | h1
          · exact hacc p h1
          · rw [h1]
            intro q hq
            rw [finalize_languages] at hq
            exact processLangList_jf env repo.name engM _ _ _ hfold
              (by intro q2 hq2; cases hq2) q hq

theorem processRepos_jf (env : Env) :
    ∀ (rs : List RepoInfo) (acc res : List (String × ResourceData)),
      processRepos env rs acc = .ok res →
      (∀ p ∈ acc, ∀ q ∈ p.2.languages, q.2.json_files = none) →
      ∀ p ∈ res, ∀ q ∈ p.2.languages, q.2.json_files = none
  | [], acc, res, h, hacc => by
    simp only [processRepos] at h
    cases h
    exact hacc
  | r :: rest, acc, res, h, hacc => by
    simp only [processRepos] at h
    rcases hp : processRepo env acc r with e | acc1
    · rw [hp] at h; cases h
    · rw [hp] at h
      exact processRepos_jf env rest acc1 res h
        (processRepo_jf env acc r acc1 hp hacc)

theorem build_jf (env : Env) (res : List (String × ResourceData))
    (h : build_resource_data env = .ok res) :
    ∀ p ∈ res, ∀ q ∈ p.2.languages, q.2.json_files = none := by
  unfold build_resource_data at h
  rcases hf : fetch_repositories env with e | repositories
  · rw [hf] at h; cases h
  · rw [hf] at h
    exact processRepos_jf env repositories [] res h (by intro p hp; cases hp)

theorem list_map_self {α : Type} (f : α → α) :
    ∀ l : List α, (∀ x ∈ l, f x = x) → l.map f = l
  | [], _ => rfl
  | x :: xs, h => by
    rw [List.map_cons, h x (List.mem_cons_self _ _),
      list_map_self f xs (fun y hy => h y (List.mem_cons_of_mem _ hy))]

theorem lr_strip_eq (lr : LanguageRecord) (h : lr.json_files = none) :
    stripLangRecord lr = lr := by
  unfold stripLangRecord
  cases lr
  simp only [] at h
  rw [h]

/-! Selection lemma: when every JSON-typed ingredient lies in the
content-file directory, the unfiltered first-JSON scan and the filtered
selection agree on their first path. -/

theorem find_filter_head (l : List (String × Ingredient))
    (h : ∀ path info, (path, info) ∈ l →
      info.mimeType = some "text/json" → content_path_matches path = true) :
    (l.find? (fun p => p.2.mimeType == some "text/json")).map (fun p => p.1) =
      ((l.filter (fun p =>
        p.2.mimeType == some "text/json" && content_path_matches p.1)).head?).map
        (fun p => p.1) := by
  induction l with
  | nil => rfl
  | cons p rest ih =>
    cases hm : (p.2.mimeType == some "text/json") with
    | false =>
      rw [List.find?_cons_of_neg _ (by simp [hm]), List.filter_cons_of_neg (by simp [hm])]
      exact ih (fun path info hmem => h path info (List.mem_cons_of_mem _ hmem))
    | true =>
      have hmt : p.2.mimeType = some "text/json" := eq_of_beq hm
      have hcp : content_path_matches p.1 = true :=
        h p.1 p.2 (List.mem_cons_self _ _) hmt
      rw [List.find?_cons_of_pos _ (by simp [hm]),
        List.filter_cons_of_pos (by simp [hm, hcp])]
      rfl

/-- C1: when English produced a metadata record for a repository, the
retained resource's final `title` equals that English LanguageRecord's
title, whatever position English held in the processing order. -/
theorem C1_english_title_priority (env : Env)
    (res : List (String × ResourceData)) (name : String) (rd : ResourceData)
    (lr : LanguageRecord) (hb : build_resource_data env = .ok res)
    (hrd : res.lookup name = some rd)
    (heng : rd.languages.lookup "eng" = some lr) :
    rd.title = some lr.title :=
  (build_good env res hb name rd hrd).2.2.2.1 lr heng

theorem C1_witness :
    rdSpaEng.title = some lrSpaEng.title
    ∧ lrSpaEng.title = some "English Title Here"
    ∧ envSpaEng.languages "RepoY" = ["spa", "eng"] :=
  ⟨C1_english_title_priority envSpaEng resSpaEng "RepoY" rdSpaEng lrSpaEng rfl
    rfl rfl, by decide, rfl⟩

/-- C10: every record retained by a successful build is free of the
internal `'_temp_title'` key: whichever branch finalized the title, the
temporary slot was deleted or never present. -/
theorem C10_temp_title_absent (env : Env)
    (res : List (String × ResourceData)) (name : String) (rd : ResourceData)
    (hb : build_resource_data env = .ok res)
    (hrd : res.lookup name = some rd) :
    rd.temp_title = none :=
  (build_good env res hb name rd hrd).2.1

theorem C10_witness : rdSpaEng.temp_title = none ∧ rdTwoLangs.temp_title = none :=
  ⟨C10_temp_title_absent envSpaEng resSpaEng "RepoY" rdSpaEng rfl rfl,
   C10_temp_title_absent envTwoLangs resTwoLangs "RepoX" rdTwoLangs rfl rfl⟩

/-- C7 counterexample: with languages processed in order [spa, fra], no
English anywhere, Spanish titled "Titulo A" and French "Titulo B", the
final title is "Titulo B" — the LAST-seen language's title — not the
first-seen "Titulo A" the claim requires. -/
theorem C7_counterexample :
    build_resource_data envTwoLangs = .ok resTwoLangs
    ∧ envTwoLangs.languages "RepoX" = ["spa", "fra"]
    ∧ resTwoLangs.lookup "RepoX" = some rdTwoLangs
    ∧ rdTwoLangs.languages.lookup "eng" = none
    ∧ (rdTwoLangs.languages.lookup "spa").map LanguageRecord.title
        = some (some "Titulo A")
    ∧ rdTwoLangs.title = some (some "Titulo B")
    ∧ (some (some "Titulo B") : Option (Option String)) ≠ some (some "Titulo A") :=
  ⟨rfl, rfl, rfl, by decide, by decide, by decide, by decide⟩

/-- C7 (amended): when English never produces a metadata record, the final
title equals the title of the LAST language that produced one — the
tentative `'_temp_title'` slot is overwritten by every non-English record,
so the first-seen candidate survives only if no later language produces
metadata; the `'title'` key itself is still written exactly once, at
retention time. -/
theorem C7_last_title_when_no_english (env : Env)
    (res : List (String × ResourceData)) (name : String) (rd : ResourceData)
    (hb : build_resource_data env = .ok res)
    (hrd : res.lookup name = some rd)
    (hnoeng : rd.languages.lookup "eng" = none) :
    ∃ l lr,
      lastOpt ((env.languages name).filter (fun s => producedB env name s)) = some l
      ∧ rd.languages.lookup l = some lr ∧ rd.title = some lr.title :=
  (build_good env res hb name rd hrd).2.2.2.2.1 hnoeng

theorem C7_witness :
    ∃ l lr,
      lastOpt ((envTwoLangs.languages "RepoX").filter
        (fun s => producedB envTwoLangs "RepoX" s)) = some l
      ∧ rdTwoLangs.languages.lookup l = some lr
      ∧ rdTwoLangs.title = some lr.title :=
  C7_last_title_when_no_english envTwoLangs resTwoLangs "RepoX" rdTwoLangs rfl
    rfl (by decide)

/-- C6: a repository's record is present in the map a successful build
returns iff the repository appears in the listing, is neither excluded by
name nor archived, and at least one of its languages produced a metadata
record. -/
theorem C6_retention_iff (env : Env) (res : List (String × ResourceData))
    (hb : build_resource_data env = .ok res) :
    ∃ all_repos, env.reposResult = .ok all_repos ∧
      ∀ name, (res.lookup name).isSome ↔
        (∃ repo ∈ all_repos,
          repo.name = name ∧ name ∉ EXCLUDED_REPOS ∧ repo.archived = false)
        ∧ ∃ lang ∈ env.languages name, producedB env name lang = true := by
  unfold build_resource_data at hb
  rcases hR : env.reposResult with e | all_repos
  · have hfr : fetch_repositories env = .error e := by
      unfold fetch_repositories
      rw [hR]
    rw [hfr] at hb
    exact absurd
      (show (Except.error e : Except Unit (List (String × ResourceData)))
        = .ok res from hb) (by simp)
  · have hfr : fetch_repositories env = .ok
        ((all_repos.filter
          (fun r => !(EXCLUDED_REPOS.contains r.name) && !r.archived)).map
          (fun r => { name := r.name, description := r.description, url := r.url })) := by
      unfold fetch_repositories
      rw [hR]
    rw [hfr] at hb
    have hb2 : processRepos env
        ((all_repos.filter
          (fun r => !(EXCLUDED_REPOS.contains r.name) && !r.archived)).map
          (fun r => { name := r.name, description := r.description, url := r.url }))
        [] = .ok res := hb
    refine ⟨all_repos, rfl, ?_⟩
    intro name
    rw [processRepos_isSome env _ [] res hb2 name]
    constructor
    · rintro (⟨r, hmem, hname, hex⟩ | hs)
      · obtain ⟨r0, hr0mem, hr0⟩ := List.mem_map.mp hmem
        obtain ⟨hr0raw, hq⟩ := List.mem_filter.mp hr0mem
        have hrn : r.name = r0.name := by rw [← hr0]
        simp only [Bool.and_eq_true, Bool.not_eq_true'] at hq
        obtain ⟨hq1, hq2⟩ := hq
        refine ⟨⟨r0, hr0raw, by rw [← hrn, hname], ?_, hq2⟩, hex⟩
        intro hmem2
        rw [← hname, hrn] at hmem2
        have hcontr : EXCLUDED_REPOS.contains r0.name = true :=
          List.elem_iff.mpr hmem2
        rw [hq1] at hcontr
        cases hcontr
      · simp [List.lookup] at hs
    · rintro ⟨⟨r0, hr0raw, hname, hnex, harch⟩, hex⟩
      left
      refine ⟨{ name := r0.name, description := r0.description, url := r0.url },
        List.mem_map.mpr ⟨r0, List.mem_filter.mpr ⟨hr0raw, ?_⟩, rfl⟩, hname, hex⟩
      simp only [Bool.and_eq_true, Bool.not_eq_true']
      refine ⟨?_, harch⟩
      cases hc : EXCLUDED_REPOS.contains r0.name
      · rfl
      · exact absurd (by rw [hname] at hc; exact List.elem_iff.mp hc) hnex

theorem C6_witness :
    (∃ all_repos, envSpaEng.reposResult = .ok all_repos ∧
      ∀ name, ((resSpaEng.lookup name).isSome ↔
        (∃ repo ∈ all_repos,
          repo.name = name ∧ name ∉ EXCLUDED_REPOS ∧ repo.archived = false)
        ∧ ∃ lang ∈ envSpaEng.languages name, producedB envSpaEng name lang = true))
    ∧ (resSpaEng.lookup "RepoY").isSome = true
    ∧ (resSpaEng.lookup "docs").isSome = false :=
  ⟨C6_retention_iff envSpaEng resSpaEng rfl, by decide, by decide⟩

/-- C8 counterexample: a 200 response whose body is not valid JSON makes
`response.json()` raise outside the try block, so one malformed
per-language metadata document aborts the whole build — refuting "never a
fatal error for the whole build". -/
theorem C8_counterexample :
    (envMalformed.metadata "RepoZ" "spa").status = 200
    ∧ build_resource_data envMalformed = .error () := ⟨rfl, rfl⟩

/-- C8 (amended): a missing metadata document (non-200 response) yields
`None`, hence no LanguageRecord for that language, and is never fatal: a
run whose metadata responses are all either non-200 or well-formed
completes. Repository-level fetch failures abort the run — but so does a
200 metadata response whose body fails to parse, so repository-level
failures are not the only fatal ones. -/
theorem C8_missing_metadata_nonfatal :
    (∀ r : MetaResponse, r.status ≠ 200 → fetch_metadata r = .ok none)
    ∧ (∀ env : Env, ∀ rs, env.reposResult = .ok rs →
        (∀ name lang, (env.metadata name lang).status = 200 →
          (env.metadata name lang).body ≠ none) →
        ∃ res, build_resource_data env = .ok res)
    ∧ (∀ (env : Env) (res : List (String × ResourceData)) (name lang : String)
        (rd : ResourceData), build_resource_data env = .ok res →
        res.lookup name = some rd → (env.metadata name lang).status ≠ 200 →
        rd.languages.lookup lang = none)
    ∧ (∀ env : Env, env.reposResult = .error () →
        build_resource_data env = .error ()) := by
  refine ⟨?_, ?_, ?_, ?_⟩
  · intro r h
    unfold fetch_metadata
    rw [if_pos h]
  · intro env rs hR hwf
    have hok : ∀ name lang, ∃ o, fetch_metadata (env.metadata name lang) = .ok o :=
      fun name lang => fetch_ok_of_wellformed _ (hwf name lang)
    have hfr : fetch_repositories env = .ok
        ((rs.filter
          (fun r => !(EXCLUDED_REPOS.contains r.name) && !r.archived)).map
          (fun r => { name := r.name, description := r.description, url := r.url })) := by
      unfold fetch_repositories
      rw [hR]
    obtain ⟨res, hres⟩ := processRepos_total env hok _ []
    refine ⟨res, ?_⟩
    unfold build_resource_data
    rw [hfr]
    exact hres
  · intro env res name lang rd hb hrd hstatus
    have hfetch : fetch_metadata (env.metadata name lang) = .ok none := by
      unfold fetch_metadata
      rw [if_pos hstatus]
    have hprod : producedB env name lang = false := by
      unfold producedB
      rw [hfetch]
    rw [(build_good env res hb name rd hrd).2.2.1 lang,
      if_neg (fun hc => by rw [hprod] at hc; cases hc.2)]
  · intro env h
    have hfr : fetch_repositories env = .error () := by
      unfold fetch_repositories
      rw [h]
    unfold build_resource_data
    rw [hfr]

theorem C8_witness :
    fetch_metadata { status := 404, body := none } = .ok none
    ∧ (∃ res, build_resource_data envSpaEng = .ok res)
    ∧ rdSpaEng.languages.lookup "deu" = none :=
  ⟨C8_missing_metadata_nonfatal.1 { status := 404, body := none } (by decide),
   C8_missing_metadata_nonfatal.2.1 envSpaEng _ rfl (by
     intro name lang h
     by_cases h1 : name = "RepoY" ∧ lang = "spa"
     · simp [envSpaEng, h1]
     · by_cases h2 : name = "RepoY" ∧ lang = "eng"
       · simp [envSpaEng, h1, h2]
       · simp [envSpaEng, h1, h2] at h),
   C8_missing_metadata_nonfatal.2.2.1 envSpaEng resSpaEng "RepoY" "deu"
     rdSpaEng rfl rfl (by
     intro h
     simp [envSpaEng] at h)⟩

/-- C3 counterexample: a non-English record whose `adaptation_notice` key
is MISSING (Python `None`) does not inherit the English notice — the
fallback fires only on the empty string — refuting the "empty or missing"
claim. -/
theorem C3_counterexample :
    metaEmpty.resource_metadata.adaptation_notice = none
    ∧ metaEngNotice.resource_metadata.adaptation_notice = some "English notice"
    ∧ (buildLanguageRecord env0 "Repo" "spa" metaEmpty
        (some metaEngNotice)).citation.adaptation_notice = none
    ∧ (none : Option String) ≠ some "English notice" :=
  ⟨rfl, rfl, by decide, by decide⟩

/-- C3 (amended): the English adaptation notice is inherited only when the
record's own `resource_metadata.adaptation_notice` is present and equal to
the empty string; a missing notice stays missing even when an English
sibling metadata record is available. -/
theorem C3_adaptation_fallback (env : Env) (repo_name lang : String)
    (m em : Metadata) :
    (m.resource_metadata.adaptation_notice = some "" →
      (buildLanguageRecord env repo_name lang m (some em)).citation.adaptation_notice
        = em.resource_metadata.adaptation_notice)
    ∧ (m.resource_metadata.adaptation_notice = none →
      (buildLanguageRecord env repo_name lang m (some em)).citation.adaptation_notice
        = none) := by
  constructor <;> intro h <;> simp [buildLanguageRecord, h]

theorem C3_witness :
    (buildLanguageRecord env0 "Repo" "spa" metaEmptyNotice
      (some metaEngNotice)).citation.adaptation_notice
      = metaEngNotice.resource_metadata.adaptation_notice
    ∧ metaEngNotice.resource_metadata.adaptation_notice = some "English notice" :=
  ⟨(C3_adaptation_fallback env0 "Repo" "spa" metaEmptyNotice metaEngNotice).1 rfl,
   rfl⟩

/-- C2 counterexample: with an audio-timing JSON ingredient listed before
the content files, `get_first_json_path` (which filters only on mimeType)
returns the audio-timing path, while the filtered content-file selection
starts at the content file — so the first selected entry's path is NOT the
value exposed as `first_json_path`. -/
theorem C2_counterexample :
    get_first_json_path (some metaAudioFirst) = some "audio/timing/01.json"
    ∧ (get_json_files_with_labels (some metaAudioFirst) "eng").map NavEntry.path
        = ["json/01.content.json"]
    ∧ ((get_json_files_with_labels (some metaAudioFirst) "eng").head?).map
        NavEntry.path ≠ get_first_json_path (some metaAudioFirst) :=
  ⟨by decide, by decide, by decide⟩

/-- C2 (amended): the content-file selection keeps exactly the ingredients
whose mimeType is the JSON content type and whose path matches the
content-file pattern — never an audio-timing path; `first_json_path`,
however, is the path of the first ingredient with JSON mimeType,
irrespective of its directory, and coincides with the first selected
entry's path only when every JSON-typed ingredient matches the
content-file pattern. -/
theorem C2_selection_filter :
    (∀ (m : Metadata) (lang : String) (e : NavEntry),
      e ∈ get_json_files_with_labels (some m) lang →
      ∃ info, (e.path, info) ∈ m.scripture_burrito.ingredients
        ∧ info.mimeType = some "text/json"
        ∧ content_path_matches e.path = true
        ∧ strStartsWith e.path "audio/" = false)
    ∧ (∀ (m : Metadata) (lang : String),
      (∀ path info, (path, info) ∈ m.scripture_burrito.ingredients →
        info.mimeType = some "text/json" → content_path_matches path = true) →
      get_first_json_path (some m)
        = ((get_json_files_with_labels (some m) lang).head?).map NavEntry.path) := by
  constructor
  · intro m lang e he
    unfold get_json_files_with_labels at he
    obtain ⟨p, hp, hpe⟩ := List.mem_map.mp he
    obtain ⟨hpmem, hpcond⟩ := List.mem_filter.mp hp
    simp only [Bool.and_eq_true] at hpcond
    have hpath : e.path = p.1 := by rw [← hpe]
    refine ⟨p.2, ?_, eq_of_beq hpcond.1, ?_, ?_⟩
    · rw [hpath]
      exact hpmem
    · rw [hpath]
      exact hpcond.2
    · have h3 := hpcond.2
      unfold content_path_matches at h3
      simp only [Bool.and_eq_true, Bool.not_eq_true'] at h3
      rw [hpath]
      exact h3.2
  · intro m lang hwf
    unfold get_first_json_path get_json_files_with_labels
    rw [List.head?_map, Option.map_map]
    exact find_filter_head m.scripture_burrito.ingredients hwf

theorem C2_witness :
    get_first_json_path (some metaContentOnly)
      = ((get_json_files_with_labels (some metaContentOnly) "eng").head?).map
          NavEntry.path
    ∧ get_first_json_path (some metaContentOnly) = some "json/01.content.json" :=
  ⟨C2_selection_filter.2 metaContentOnly "eng" (by
     intro path info h hm
     simp only [metaContentOnly, metaEmpty, List.mem_cons,
       List.not_mem_nil, or_false] at h
     rcases h with h | h
     · cases h
       decide
     · cases h
       exact absurd hm (by decide)),
   by decide⟩

/-- C4: under the canonical order policy, `transform_label` maps every
known Bible-book code (case-insensitively) to its full English name and
passes unknown codes through unchanged; under every policy outside
{canonical, alphabetical, monograph}, including the empty string, it is
the identity. -/
theorem C4_transform_label :
    (transform_label "GEN" "canonical" "eng" = "Genesis"
      ∧ transform_label "1SA" "canonical" "eng" = "1 Samuel"
      ∧ transform_label "XXX" "canonical" "eng" = "XXX")
    ∧ (∀ p ∈ BIBLE_BOOKS, transform_label p.1 "canonical" "eng" = p.2
        ∧ transform_label (strLower p.1) "canonical" "eng" = p.2)
    ∧ (∀ (x order_policy lang : String), order_policy ≠ "canonical" →
        order_policy ≠ "alphabetical" → order_policy ≠ "monograph" →
        transform_label x order_policy lang = x) := by
  refine ⟨by decide, by decide, ?_⟩
  intro x p l h1 h2 h3
  simp [transform_label, h1, h2, h3]

theorem C4_witness :
    transform_label "GEN" "frequency" "eng" = "GEN"
    ∧ transform_label "" "" "eng" = ""
    ∧ transform_label (strLower "1SA") "canonical" "eng" = "1 Samuel" :=
  ⟨C4_transform_label.2.2 "GEN" "frequency" "eng" (by decide) (by decide)
     (by decide),
   C4_transform_label.2.2 "" "" "eng" (by decide) (by decide) (by decide),
   (C4_transform_label.2.1 ("1SA", "1 Samuel") (by decide)).2⟩

theorem lookup_map_value {α β : Type} (f : α → β) :
    ∀ (l : List (String × α)) (k : String),
      (l.map (fun p => (p.1, f p.2))).lookup k = (l.lookup k).map f
  | [], k => rfl
  | (k1, v1) :: rest, k => by
    simp only [List.map_cons, List.lookup]
    cases hb : (k == k1)
    · exact lookup_map_value f rest k
    · rfl

/-- C5 counterexample: on a resource map whose language record carries the
internal `json_files` field, `generate_catalog_html` embeds its argument
unprojected, so `json_files` appears in the inline payload and the payload
differs from the catalog projection — refuting "this projected copy is
what gets embedded". -/
theorem C5_counterexample :
    ((generate_catalog_html resWithFiles).resources_json.lookup "X").map
        (fun rd => (rd.languages.lookup "eng").map (fun lr => lr.json_files))
      = some (some (some [{ path := "json/01.content.json", label := "Genesis" }]))
    ∧ (generate_catalog_html resWithFiles).resources_json
        ≠ get_catalog_resources resWithFiles :=
  ⟨by decide, by decide⟩

/-- C5 (amended): `get_catalog_resources` returns a copy of the resource
map in which every LanguageRecord's `json_files` field is removed and all
other fields (including `first_json_path`) are preserved unchanged;
`generate_catalog_html` embeds its `resources` argument without applying
the projection, and the rendered payload still never carries `json_files`
on pipeline-built maps only because `build_resource_data` never emits the
field — on such maps the embedded payload equals the projected copy. -/
theorem C5_catalog_projection :
    (∀ (resources : List (String × ResourceData)) (name : String)
        (rd2 : ResourceData),
      (get_catalog_resources resources).lookup name = some rd2 →
      ∃ rd, resources.lookup name = some rd
        ∧ rd2 = stripResource rd
        ∧ ∀ lang lr2, rd2.languages.lookup lang = some lr2 →
            ∃ lr, rd.languages.lookup lang = some lr
              ∧ lr2 = stripLangRecord lr)
    ∧ (∀ (env : Env) (res : List (String × ResourceData)),
        build_resource_data env = .ok res →
        (generate_catalog_html res).resources_json = get_catalog_resources res) := by
  constructor
  · intro resources name rd2 h
    unfold get_catalog_resources at h
    rw [lookup_map_value] at h
    rcases hl : resources.lookup name with _ | rd
    · rw [hl] at h
      cases h
    · rw [hl] at h
      refine ⟨rd, rfl, ?_, ?_⟩
      · cases h
        rfl
      · intro lang lr2 h2
        cases h
        unfold stripResource at h2
        simp only [] at h2
        rw [lookup_map_value] at h2
        rcases hl2 : rd.languages.lookup lang with _ | lr
        · rw [hl2] at h2
          cases h2
        · rw [hl2] at h2
          cases h2
          exact ⟨lr, rfl, rfl⟩
  · intro env res hb
    have hjf := build_jf env res hb
    show res = get_catalog_resources res
    unfold get_catalog_resources
    refine (list_map_self _ res ?_).symm
    intro p hp
    have hinner : p.2.languages.map (fun q => (q.1, stripLangRecord q.2))
        = p.2.languages := by
      refine list_map_self _ p.2.languages ?_
      intro q hq
      rw [lr_strip_eq q.2 (hjf p hp q hq)]
    show (p.1, stripResource p.2) = p
    unfold stripResource
    rw [hinner]

theorem C5_witness :
    (generate_catalog_html resSpaEng).resources_json
      = get_catalog_resources resSpaEng :=
  C5_catalog_projection.2 envSpaEng resSpaEng rfl

/-- C9: the aggregation, the projection, the catalog rendering and the
navigation emission are all functions of their inputs alone — two runs on
identical upstream data produce identical catalog payloads and navigation
files. -/
theorem C9_deterministic :
    ∀ env1 env2 : Env, env1 = env2 →
      build_resource_data env1 = build_resource_data env2
      ∧ ∀ r1 r2 : List (String × ResourceData), r1 = r2 →
          generate_catalog_html r1 = generate_catalog_html r2
          ∧ generate_nav_files r1 = generate_nav_files r2
          ∧ get_catalog_resources r1 = get_catalog_resources r2 := by
  intro env1 env2 h
  subst h
  exact ⟨rfl, fun r1 r2 h2 => by subst h2; exact ⟨rfl, rfl, rfl⟩⟩

theorem C9_witness :
    build_resource_data envTwoLangs = build_resource_data envTwoLangs
    ∧ generate_catalog_html resTwoLangs = generate_catalog_html resTwoLangs
    ∧ generate_nav_files resTwoLangs = generate_nav_files resTwoLangs :=
  ⟨(C9_deterministic envTwoLangs envTwoLangs rfl).1,
   ((C9_deterministic envTwoLangs envTwoLangs rfl).2 resTwoLangs resTwoLangs rfl).1,
   ((C9_deterministic envTwoLangs envTwoLangs rfl).2 resTwoLangs resTwoLangs rfl).2.1⟩

end BibleAquifer
